import Mathlib

/-!
Shallow embedding of `maldi_learn/kernels.py` (class `DiffusionKernel`).

A spectrum is a list of peaks; a peak is a pair (position, intensity),
mirroring the numpy rows where `x[:, 0]` holds positions and `x[:, 1]`
holds intensities.  The numpy pipeline (squared-euclidean pairwise
distance matrix, outer product of the peak vectors, elementwise
combination, grand sum) is embedded stage by stage on lists of lists.
-/

namespace MaldiLearn

noncomputable section

/-- A peak of a spectrum: `(position, intensity)`, i.e. one row of the
numpy array, with `x[:, 0]` the position and `x[:, 1]` the intensity. -/
abbrev Peak : Type := ℝ × ℝ

/-- A spectrum: an ordered sequence of peaks. -/
abbrev Spectrum : Type := List Peak

/-- `x[:, 0]`: the position column of a spectrum. -/
def positions (x : Spectrum) : List ℝ :=
  x.map Prod.fst

/-- `x[:, 1]`: the intensity (peak-height) column of a spectrum. -/
def peaks (x : Spectrum) : List ℝ :=
  x.map Prod.snd

/-- `pairwise_distances(a, b, metric='sqeuclidean')` on 1-D coordinate
columns: the matrix of squared differences. -/
def sqDistances (a b : List ℝ) : List (List ℝ) :=
  a.map (fun p => b.map (fun q => (p - q) ^ 2))

/-- `np.outer(a, b)`: the outer-product matrix. -/
def outer (a b : List ℝ) : List (List ℝ) :=
  a.map (fun p => b.map (fun q => p * q))

/-- Elementwise combination of two equally shaped matrices, as numpy
broadcasting does for `A * B`, `A / c` and friends. -/
def elementwise (f : ℝ → ℝ → ℝ) (A B : List (List ℝ)) : List (List ℝ) :=
  List.zipWith (List.zipWith f) A B

/-- `np.sum` over all entries of a matrix. -/
def totalSum (A : List (List ℝ)) : ℝ :=
  (A.map List.sum).sum

/-- `evaluate_kernel(x, y)` from `DiffusionKernel.__call__`:
distances = squared euclidean distances of the position columns,
`P` = outer product of the peak columns,
`K = P * np.exp(-distances / (8 * self.sigma))`, result `-np.sum(K)`. -/
def evaluate_kernel (sigma : ℝ) (x y : Spectrum) : ℝ :=
  let distances := sqDistances (positions x) (positions y)
  let P := outer (peaks x) (peaks y)
  let K := elementwise (fun p d => p * Real.exp (-d / (8 * sigma))) P distances;
  -(totalSum K)

/-- `evaluate_gradient(x, y)` from `DiffusionKernel.__call__`:
same `distances`, `P` and `K` as `evaluate_kernel`, then
`K_gradient = distances * K / (4 * self.sigma**2)`, result
`-np.sum(K_gradient)`. -/
def evaluate_gradient (sigma : ℝ) (x y : Spectrum) : ℝ :=
  let distances := sqDistances (positions x) (positions y)
  let P := outer (peaks x) (peaks y)
  let K := elementwise (fun p d => p * Real.exp (-d / (8 * sigma))) P distances
  let K_gradient := elementwise (fun d k => d * k / (4 * sigma ^ 2)) distances K;
  -(totalSum K_gradient)

/-- `pairwise_kernels(X, Y, metric=evaluate_kernel)`: the matrix whose
entry `[i][j]` is `evaluate_kernel(X[i], Y[j])` (sklearn fills every
required cell with the callable metric; in the symmetric `Y is None`
case it computes the upper triangle and mirrors it, which agrees with
the full map because the metric is symmetric). -/
def kernelMatrix (sigma : ℝ) (X Y : List Spectrum) : List (List ℝ) :=
  X.map (fun x => Y.map (fun y => evaluate_kernel sigma x y))

/-- The result of the Python method `DiffusionKernel.__call__`:
either a kernel matrix, the pair promised by the docstring for
`eval_gradient=True`, the implicit Python `None` when the function body
falls through without a `return` statement, or a raised exception. -/
inductive CallResult : Type where
  | matrix (K : List (List ℝ)) : CallResult
  | matrixWithGradient (K Kgrad : List (List ℝ)) : CallResult
  | pyNone : CallResult
  | raised (msg : String) : CallResult

/-- `DiffusionKernel.__call__(X, Y=None, eval_gradient=False)`.
With `Y = None` and `eval_gradient = True` the source computes
`K = pairwise_kernels(X, metric=evaluate_kernel)` and
`K_gradient = pairwise_kernels(X, metric=evaluate_gradient)`, prints
`K_gradient.shape`, and then falls off the end of the branch without a
`return` statement, so the Python call returns `None`.
With `Y` supplied and `eval_gradient = True` it raises
`ValueError('Gradient can only be evaluated when Y is None.')`. -/
def DiffusionKernel.call (sigma : ℝ) (X : List Spectrum)
    (Y : Option (List Spectrum)) (eval_gradient : Bool) : CallResult :=
  match Y with
  | none =>
    if eval_gradient then
      CallResult.pyNone
    else
      CallResult.matrix (kernelMatrix sigma X X)
  | some Y₀ =>
    if eval_gradient then
      CallResult.raised "Gradient can only be evaluated when Y is None."
    else
      CallResult.matrix (kernelMatrix sigma X Y₀)

/-- `DiffusionKernel.diag(X)` from the source: a per-element loop that,
for each spectrum `x` of `X`, recomputes the distance matrix of `x`
against itself, the outer product of its peaks with themselves, and
stores `-np.sum(P * np.exp(-distances / (8 * self.sigma)))`. -/
def DiffusionKernel.diag (sigma : ℝ) (X : List Spectrum) : List ℝ :=
  X.map (fun x =>
    let distances := sqDistances (positions x) (positions x)
    let P := outer (peaks x) (peaks x);
    -(totalSum (elementwise (fun p d => p * Real.exp (-d / (8 * sigma))) P distances)))

/-- The kernel configuration object: `__init__` stores `sigma` on the
instance. -/
structure DiffusionKernel : Type where
  sigma : ℝ

/-- `DiffusionKernel.__init__(sigma)` from the source: it assigns
`self.sigma = sigma` unconditionally (the remainder of the constructor
only monkey-patches `sklearn.metrics.pairwise.check_pairwise_arrays`,
which has no bearing on `sigma`).  No validation of `sigma` is performed
and no exception can be raised, so the embedding always returns `ok`. -/
def DiffusionKernel.init (sigma : ℝ) : Except String DiffusionKernel :=
  Except.ok ⟨sigma⟩

/-- The per-pair term of the kernel sum: the contribution of peak `a` of
`x` and peak `b` of `y` to `evaluate_kernel`. -/
def kernelTerm (sigma : ℝ) (a b : Peak) : ℝ :=
  a.2 * b.2 * Real.exp (-((a.1 - b.1) ^ 2) / (8 * sigma))

/-- The per-pair term of the gradient sum as the source computes it:
`distances * K / (4 * sigma**2)` entrywise. -/
def gradientTerm (sigma : ℝ) (a b : Peak) : ℝ :=
  (a.1 - b.1) ^ 2 * kernelTerm sigma a b / (4 * sigma ^ 2)

/-- Double sum of a per-pair term over all cross pairs of two spectra. -/
def pairSum (t : Peak → Peak → ℝ) (x y : Spectrum) : ℝ :=
  (x.map (fun a => (y.map (fun b => t a b)).sum)).sum

end

lemma list_sum_map_zero {α : Type} (l : List α) :
    (l.map (fun _ => (0 : ℝ))).sum = 0 := by
  induction l with
  | nil => simp
  | cons a l ih => simp [ih]

lemma list_sum_map_add {α : Type} (l : List α) (f g : α → ℝ) :
    (l.map (fun a => f a + g a)).sum = (l.map f).sum + (l.map g).sum := by
  induction l with
  | nil => simp
  | cons a l ih => simp [ih]; ring

/-- Normal form of `evaluate_kernel`: the matrix pipeline collapses to a
double sum of `kernelTerm` over all cross pairs. -/
lemma evaluate_kernel_eq (sigma : ℝ) (x y : Spectrum) :
    evaluate_kernel sigma x y = -(pairSum (kernelTerm sigma) x y) := by
  simp only [evaluate_kernel, pairSum, kernelTerm, sqDistances, outer,
    positions, peaks, elementwise, totalSum, List.map_map,
    List.zipWith_map, List.zipWith_same]
  simp [Function.comp_def]

/-- Normal form of `evaluate_gradient`: the matrix pipeline collapses to
a double sum of `gradientTerm` over all cross pairs. -/
lemma evaluate_gradient_eq (sigma : ℝ) (x y : Spectrum) :
    evaluate_gradient sigma x y = -(pairSum (gradientTerm sigma) x y) := by
  simp only [evaluate_gradient, pairSum, gradientTerm, kernelTerm,
    sqDistances, outer, positions, peaks, elementwise, totalSum,
    List.map_map, List.zipWith_map, List.zipWith_same]
  simp [Function.comp_def]

/-- C1: the self-similarity gradient call.  The branch of
`DiffusionKernel.__call__` taken for `Y=None, eval_gradient=True`
computes both pairwise matrices but ends with `print(K_gradient.shape)`
and no `return` statement, so the Python call evaluates to `None`
instead of the `(K, K_gradient)` pair that the claim (and the method's
own docstring) promises. -/
theorem call_self_gradient_returns_none (sigma : ℝ) (X : List Spectrum) :
    DiffusionKernel.call sigma X none true = CallResult.pyNone ∧
    ∀ K Kgrad : List (List ℝ),
      DiffusionKernel.call sigma X none true ≠
        CallResult.matrixWithGradient K Kgrad := by
  refine ⟨rfl, ?_⟩
  intro K Kgrad h
  simpa [DiffusionKernel.call] using h

/-- C3 counterexample: configuring the kernel with `sigma = 0` is not
rejected; `__init__` stores the value and produces an instance, and in
particular signals no error. -/
theorem init_zero_sigma_not_rejected :
    DiffusionKernel.init 0 = Except.ok ⟨0⟩ ∧
    ∀ msg : String, DiffusionKernel.init 0 ≠ Except.error msg := by
  refine ⟨rfl, ?_⟩
  intro msg h
  simpa [DiffusionKernel.init] using h

/-- C3 (amended): the constructor performs no validation at all; for
every `sigma ≤ 0` it still produces an instance holding that `sigma`
and signals no error. -/
theorem init_accepts_nonpositive_sigma (sigma : ℝ) (h : sigma ≤ 0) :
    DiffusionKernel.init sigma = Except.ok ⟨sigma⟩ :=
  rfl

/-- Witness for `init_accepts_nonpositive_sigma` at `sigma = -1`. -/
theorem init_accepts_nonpositive_sigma_witness :
    (-1 : ℝ) ≤ 0 ∧ DiffusionKernel.init (-1) = Except.ok ⟨-1⟩ :=
  ⟨by norm_num, init_accepts_nonpositive_sigma (-1) (by norm_num)⟩

/-- C8: requesting gradient evaluation while supplying a second
collection raises
`ValueError('Gradient can only be evaluated when Y is None.')`
immediately, before any kernel computation, and returns no matrix. -/
theorem call_cross_gradient_raises (sigma : ℝ) (X Y : List Spectrum) :
    DiffusionKernel.call sigma X (some Y) true =
      CallResult.raised "Gradient can only be evaluated when Y is None." ∧
    ∀ K : List (List ℝ),
      DiffusionKernel.call sigma X (some Y) true ≠ CallResult.matrix K := by
  refine ⟨rfl, ?_⟩
  intro K h
  simpa [DiffusionKernel.call] using h

/-- C7: if either input point set is empty then both the similarity and
the gradient are zero. -/
theorem empty_spectrum_zero (sigma : ℝ) (y : Spectrum) :
    evaluate_kernel sigma [] y = 0 ∧ evaluate_gradient sigma [] y = 0 ∧
    evaluate_kernel sigma y [] = 0 ∧ evaluate_gradient sigma y [] = 0 := by
  refine ⟨?_, ?_, ?_, ?_⟩ <;>
    simp [evaluate_kernel_eq, evaluate_gradient_eq, pairSum,
      list_sum_map_zero]

/-- The kernel value exactly as the claim words it: minus the sum over
all index pairs `i < n`, `j < m` of
`intensity_x[i] * intensity_y[j] * exp(-(pos_x[i] - pos_y[j])^2 / (8*sigma))`.
Written from the specification sentence, to be compared with the
source-derived `evaluate_kernel`. -/
noncomputable def evaluate_spec (sigma : ℝ) (x y : Spectrum) : ℝ :=
  -(∑ i ∈ Finset.range x.length, ∑ j ∈ Finset.range y.length,
      (x.getD i (0, 0)).2 * (y.getD j (0, 0)).2 *
        Real.exp (-(((x.getD i (0, 0)).1 - (y.getD j (0, 0)).1) ^ 2) /
          (8 * sigma)))

lemma list_sum_map_eq_sum_range {α : Type} (l : List α) (d : α) (f : α → ℝ) :
    (l.map f).sum = ∑ i ∈ Finset.range l.length, f (l.getD i d) := by
  induction l with
  | nil => simp
  | cons a l ih =>
    simp [Finset.sum_range_succ', List.getD_cons_succ, List.getD_cons_zero,
      ih, add_comm]

/-- C4: `evaluate_kernel` computes exactly the double sum stated by the
specification. -/
theorem evaluate_kernel_matches_spec_formula (sigma : ℝ) (x y : Spectrum) :
    evaluate_kernel sigma x y = evaluate_spec sigma x y := by
  rw [evaluate_kernel_eq, evaluate_spec, pairSum, neg_inj]
  rw [list_sum_map_eq_sum_range _ ((0 : ℝ), (0 : ℝ))]
  refine Finset.sum_congr rfl ?_
  intro i _
  rw [list_sum_map_eq_sum_range _ ((0 : ℝ), (0 : ℝ))]
  refine Finset.sum_congr rfl ?_
  intro j _
  rfl

lemma list_sum_map_congr {α : Type} (l : List α) (f g : α → ℝ)
    (h : ∀ a ∈ l, f a = g a) : (l.map f).sum = (l.map g).sum := by
  induction l with
  | nil => simp
  | cons a l ih =>
    simp only [List.map_cons, List.sum_cons]
    rw [h a (by simp), ih (fun b hb => h b (by simp [hb]))]

/-- Exchanging the two summations of a `pairSum`. -/
lemma pairSum_swap (t : Peak → Peak → ℝ) (x y : Spectrum) :
    pairSum t x y = pairSum (fun b a => t a b) y x := by
  induction x with
  | nil => simp [pairSum, list_sum_map_zero]
  | cons a x ih =>
    simp only [pairSum, List.map_cons, List.sum_cons] at ih ⊢
    rw [ih, ← list_sum_map_add]

/-- The per-pair kernel term is symmetric in its two peaks. -/
lemma kernelTerm_comm (sigma : ℝ) (a b : Peak) :
    kernelTerm sigma a b = kernelTerm sigma b a := by
  unfold kernelTerm
  have hsq : (a.1 - b.1) ^ 2 = (b.1 - a.1) ^ 2 := by ring
  rw [hsq]
  ring

/-- `evaluate_kernel` is symmetric in its two spectra. -/
lemma evaluate_kernel_comm (sigma : ℝ) (x y : Spectrum) :
    evaluate_kernel sigma x y = evaluate_kernel sigma y x := by
  rw [evaluate_kernel_eq, evaluate_kernel_eq, neg_inj, pairSum_swap]
  unfold pairSum
  refine list_sum_map_congr _ _ _ ?_
  intro b _
  exact list_sum_map_congr _ _ _ (fun a _ => kernelTerm_comm sigma a b)

/-- In-range entry of the assembled kernel matrix. -/
lemma kernelMatrix_entry (sigma : ℝ) (X Y : List Spectrum) (i j : ℕ)
    (hi : i < X.length) (hj : j < Y.length) :
    ((kernelMatrix sigma X Y).getD i []).getD j 0 =
      evaluate_kernel sigma (X.getD i []) (Y.getD j []) := by
  have h1 : (kernelMatrix sigma X Y).getD i [] =
      Y.map (fun y => evaluate_kernel sigma (X.getD i []) y) := by
    unfold kernelMatrix
    rw [List.getD_eq_getElem _ _ (by simpa using hi), List.getElem_map,
      List.getD_eq_getElem _ _ hi]
  rw [h1, List.getD_eq_getElem _ _ (by simpa using hj), List.getElem_map,
    List.getD_eq_getElem _ _ hj]

/-- C5: the self-similarity kernel matrix is symmetric: for in-range
indices `i`, `j`, entry `[i][j]` equals entry `[j][i]` (exactly, over
the reals). -/
theorem kernelMatrix_symmetric (sigma : ℝ) (C : List Spectrum) (i j : ℕ)
    (hi : i < C.length) (hj : j < C.length) :
    ((kernelMatrix sigma C C).getD i []).getD j 0 =
      ((kernelMatrix sigma C C).getD j []).getD i 0 := by
  rw [kernelMatrix_entry sigma C C i j hi hj,
    kernelMatrix_entry sigma C C j i hj hi]
  exact evaluate_kernel_comm sigma _ _

/-- Witness for `kernelMatrix_symmetric` on a concrete two-spectrum
collection. -/
theorem kernelMatrix_symmetric_witness :
    0 < ([[((0 : ℝ), (1 : ℝ))], [((2 : ℝ), (3 : ℝ))]] : List Spectrum).length ∧
    1 < ([[((0 : ℝ), (1 : ℝ))], [((2 : ℝ), (3 : ℝ))]] : List Spectrum).length ∧
    ((kernelMatrix 1 [[((0 : ℝ), (1 : ℝ))], [((2 : ℝ), (3 : ℝ))]]
        [[((0 : ℝ), (1 : ℝ))], [((2 : ℝ), (3 : ℝ))]]).getD 0 []).getD 1 0 =
      ((kernelMatrix 1 [[((0 : ℝ), (1 : ℝ))], [((2 : ℝ), (3 : ℝ))]]
        [[((0 : ℝ), (1 : ℝ))], [((2 : ℝ), (3 : ℝ))]]).getD 1 []).getD 0 0 :=
  ⟨by norm_num, by norm_num,
    kernelMatrix_symmetric 1 _ 0 1 (by norm_num) (by norm_num)⟩

/-- C6: the optimised per-element loop of `DiffusionKernel.diag`
computes exactly the diagonal of the full kernel matrix: for every
in-range index `i`, `diag(X)[i] = matrix(X, X)[i][i]`. -/
theorem diag_matches_matrix_diagonal (sigma : ℝ) (X : List Spectrum)
    (i : ℕ) (hi : i < X.length) :
    (DiffusionKernel.diag sigma X).getD i 0 =
      ((kernelMatrix sigma X X).getD i []).getD i 0 := by
  rw [kernelMatrix_entry sigma X X i i hi hi]
  unfold DiffusionKernel.diag
  rw [List.getD_eq_getElem _ _ (by simpa using hi), List.getElem_map,
    List.getD_eq_getElem _ _ hi]
  rfl

/-- A `pairSum` is invariant under permuting either spectrum. -/
lemma pairSum_perm (t : Peak → Peak → ℝ) {x x' y y' : Spectrum}
    (hx : x.Perm x') (hy : y.Perm y') :
    pairSum t x y = pairSum t x' y' := by
  unfold pairSum
  have hrow : ∀ a : Peak,
      (y.map (fun b => t a b)).sum = (y'.map (fun b => t a b)).sum :=
    fun a => (hy.map (fun b => t a b)).sum_eq
  rw [list_sum_map_congr _ _ _ (fun a _ => hrow a)]
  exact (hx.map (fun a => (y'.map (fun b => t a b)).sum)).sum_eq

/-- C9: the order of points inside a point set is irrelevant: permuting
the peaks of either argument changes neither `evaluate_kernel` nor
`evaluate_gradient`. -/
theorem evaluate_perm_invariant (sigma : ℝ) {x x' y y' : Spectrum}
    (hx : x.Perm x') (hy : y.Perm y') :
    evaluate_kernel sigma x y = evaluate_kernel sigma x' y' ∧
    evaluate_gradient sigma x y = evaluate_gradient sigma x' y' := by
  constructor
  · rw [evaluate_kernel_eq, evaluate_kernel_eq, pairSum_perm _ hx hy]
  · rw [evaluate_gradient_eq, evaluate_gradient_eq, pairSum_perm _ hx hy]

/-- Witness for `evaluate_perm_invariant`: swapping the two peaks of the
first spectrum. -/
theorem evaluate_perm_invariant_witness :
    ([((0 : ℝ), (1 : ℝ)), ((2 : ℝ), (3 : ℝ))] : Spectrum).Perm
      [((2 : ℝ), (3 : ℝ)), ((0 : ℝ), (1 : ℝ))] ∧
    ([((5 : ℝ), (1 : ℝ))] : Spectrum).Perm [((5 : ℝ), (1 : ℝ))] ∧
    (evaluate_kernel 1 [((0 : ℝ), 1), ((2 : ℝ), 3)] [((5 : ℝ), 1)] =
        evaluate_kernel 1 [((2 : ℝ), 3), ((0 : ℝ), 1)] [((5 : ℝ), 1)] ∧
      evaluate_gradient 1 [((0 : ℝ), 1), ((2 : ℝ), 3)] [((5 : ℝ), 1)] =
        evaluate_gradient 1 [((2 : ℝ), 3), ((0 : ℝ), 1)] [((5 : ℝ), 1)]) :=
  ⟨List.Perm.swap _ _ _, List.Perm.refl _,
    evaluate_perm_invariant 1 (List.Perm.swap _ _ _) (List.Perm.refl _)⟩

/-- Every term of the kernel double sum is non-negative when all
intensities are non-negative. -/
lemma pairSum_kernelTerm_nonneg (sigma : ℝ) (x y : Spectrum)
    (hx : ∀ p ∈ x, 0 ≤ p.2) (hy : ∀ q ∈ y, 0 ≤ q.2) :
    0 ≤ pairSum (kernelTerm sigma) x y := by
  unfold pairSum
  refine List.sum_nonneg ?_
  intro r hr
  obtain ⟨a, ha, rfl⟩ := List.mem_map.mp hr
  refine List.sum_nonneg ?_
  intro s hs
  obtain ⟨b, hb, rfl⟩ := List.mem_map.mp hs
  unfold kernelTerm
  exact mul_nonneg (mul_nonneg (hx a ha) (hy b hb)) (Real.exp_pos _).le

/-- `evaluate_kernel` is non-positive for non-negative intensities. -/
lemma evaluate_kernel_nonpos (sigma : ℝ) (x y : Spectrum)
    (hx : ∀ p ∈ x, 0 ≤ p.2) (hy : ∀ q ∈ y, 0 ≤ q.2) :
    evaluate_kernel sigma x y ≤ 0 := by
  rw [evaluate_kernel_eq]
  simpa using pairSum_kernelTerm_nonneg sigma x y hx hy

/-- C10: with non-negative intensities the kernel value is non-positive,
and consequently so is every entry of every assembled kernel matrix and
every element of the diagonal. -/
theorem kernel_values_nonpos (sigma : ℝ) (x y : Spectrum)
    (X Y : List Spectrum)
    (hx : ∀ p ∈ x, 0 ≤ p.2) (hy : ∀ q ∈ y, 0 ≤ q.2)
    (hX : ∀ s ∈ X, ∀ p ∈ s, 0 ≤ p.2) (hY : ∀ s ∈ Y, ∀ p ∈ s, 0 ≤ p.2) :
    evaluate_kernel sigma x y ≤ 0 ∧
    (∀ i j : ℕ, i < X.length → j < Y.length →
      ((kernelMatrix sigma X Y).getD i []).getD j 0 ≤ 0) ∧
    (∀ i : ℕ, i < X.length →
      (DiffusionKernel.diag sigma X).getD i 0 ≤ 0) := by
  refine ⟨evaluate_kernel_nonpos sigma x y hx hy, ?_, ?_⟩
  · intro i j hi hj
    rw [kernelMatrix_entry sigma X Y i j hi hj]
    refine evaluate_kernel_nonpos sigma _ _ (hX _ ?_) (hY _ ?_)
    · rw [List.getD_eq_getElem _ _ hi]; exact List.getElem_mem hi
    · rw [List.getD_eq_getElem _ _ hj]; exact List.getElem_mem hj
  · intro i hi
    unfold DiffusionKernel.diag
    rw [List.getD_eq_getElem _ _ (by simpa using hi), List.getElem_map]
    exact evaluate_kernel_nonpos sigma (X[i]) (X[i])
      (hX _ (List.getElem_mem hi)) (hX _ (List.getElem_mem hi))

/-- Witness for `kernel_values_nonpos` on concrete spectra with
non-negative intensities. -/
theorem kernel_values_nonpos_witness :
    (∀ p ∈ ([((0 : ℝ), (1 : ℝ))] : Spectrum), 0 ≤ p.2) ∧
    (∀ q ∈ ([((2 : ℝ), (3 : ℝ))] : Spectrum), 0 ≤ q.2) ∧
    (∀ s ∈ ([[((0 : ℝ), (1 : ℝ))]] : List Spectrum), ∀ p ∈ s, 0 ≤ p.2) ∧
    (∀ s ∈ ([[((2 : ℝ), (3 : ℝ))]] : List Spectrum), ∀ p ∈ s, 0 ≤ p.2) ∧
    (evaluate_kernel 1 [((0 : ℝ), 1)] [((2 : ℝ), 3)] ≤ 0 ∧
      (∀ i j : ℕ, i < ([[((0 : ℝ), 1)]] : List Spectrum).length →
        j < ([[((2 : ℝ), 3)]] : List Spectrum).length →
        ((kernelMatrix 1 [[((0 : ℝ), 1)]] [[((2 : ℝ), 3)]]).getD i
            []).getD j 0 ≤ 0) ∧
      (∀ i : ℕ, i < ([[((0 : ℝ), 1)]] : List Spectrum).length →
        (DiffusionKernel.diag 1 [[((0 : ℝ), 1)]]).getD i 0 ≤ 0)) :=
  ⟨by norm_num, by norm_num, by norm_num, by norm_num,
    kernel_values_nonpos 1 _ _ _ _ (by norm_num) (by norm_num)
      (by norm_num) (by norm_num)⟩

/-- The derivative, in `sigma`, of one term of the kernel double sum. -/
lemma hasDerivAt_kernelTerm (a b : Peak) (sigma : ℝ) (hs : sigma ≠ 0) :
    HasDerivAt (fun s => kernelTerm s a b)
      (kernelTerm sigma a b * ((a.1 - b.1) ^ 2 / (8 * sigma ^ 2)))
      sigma := by
  have h2 : HasDerivAt
      (fun s : ℝ => a.2 * b.2 * Real.exp (-((a.1 - b.1) ^ 2) / 8 * s⁻¹))
      (a.2 * b.2 * (Real.exp (-((a.1 - b.1) ^ 2) / 8 * sigma⁻¹) *
        (-((a.1 - b.1) ^ 2) / 8 * -(sigma ^ 2)⁻¹))) sigma :=
    (((hasDerivAt_inv hs).const_mul
      (-((a.1 - b.1) ^ 2) / 8)).exp).const_mul (a.2 * b.2)
  have harg : ∀ s : ℝ,
      -((a.1 - b.1) ^ 2) / 8 * s⁻¹ = -((a.1 - b.1) ^ 2) / (8 * s) := by
    intro s
    rw [div_eq_mul_inv (-((a.1 - b.1) ^ 2)) (8 * s), mul_inv]
    ring
  have hfun : (fun s : ℝ =>
      a.2 * b.2 * Real.exp (-((a.1 - b.1) ^ 2) / 8 * s⁻¹)) =
      fun s => kernelTerm s a b := by
    funext s
    rw [harg s]
    rfl
  rw [hfun, harg sigma] at h2
  convert h2 using 1
  unfold kernelTerm
  field_simp
  ring

/-- Derivative of a sum over a list of parameter-dependent terms. -/
lemma hasDerivAt_list_sum {α : Type} (l : List α) (f : α → ℝ → ℝ)
    (f' : α → ℝ) (sigma : ℝ)
    (h : ∀ a ∈ l, HasDerivAt (f a) (f' a) sigma) :
    HasDerivAt (fun s => (l.map (fun a => f a s)).sum)
      ((l.map f').sum) sigma := by
  induction l with
  | nil => simpa using hasDerivAt_const sigma (0 : ℝ)
  | cons a l ih =>
    simp only [List.map_cons, List.sum_cons]
    exact (h a (by simp)).add (ih (fun b hb => h b (by simp [hb])))

/-- Derivative, in `sigma`, of the kernel double sum. -/
lemma hasDerivAt_pairSum (x y : Spectrum) (sigma : ℝ) (hs : sigma ≠ 0) :
    HasDerivAt (fun s => pairSum (kernelTerm s) x y)
      (pairSum (fun a b =>
        kernelTerm sigma a b * ((a.1 - b.1) ^ 2 / (8 * sigma ^ 2))) x y)
      sigma := by
  unfold pairSum
  refine hasDerivAt_list_sum x
    (fun a s => (y.map (fun b => kernelTerm s a b)).sum)
    (fun a => (y.map (fun b =>
      kernelTerm sigma a b * ((a.1 - b.1) ^ 2 / (8 * sigma ^ 2)))).sum)
    sigma ?_
  intro a _
  exact hasDerivAt_list_sum y (fun b s => kernelTerm s a b)
    (fun b => kernelTerm sigma a b * ((a.1 - b.1) ^ 2 / (8 * sigma ^ 2)))
    sigma (fun b _ => hasDerivAt_kernelTerm a b sigma hs)

lemma list_sum_map_div {α : Type} (l : List α) (f : α → ℝ) (c : ℝ) :
    (l.map (fun a => f a / c)).sum = (l.map f).sum / c := by
  induction l with
  | nil => simp
  | cons a l ih => simp [ih]; ring

/-- Halving a `pairSum` termwise. -/
lemma pairSum_div_two (t : Peak → Peak → ℝ) (x y : Spectrum) :
    pairSum (fun a b => t a b / 2) x y = pairSum t x y / 2 := by
  unfold pairSum
  rw [← list_sum_map_div]
  refine list_sum_map_congr _ _ _ ?_
  intro a _
  exact list_sum_map_div y (fun b => t a b) 2

/-- C2: the derivative, with respect to `sigma`, of
`evaluate_kernel(x, y, sigma)` is HALF of
`evaluate_gradient(x, y, sigma)`: the source scales the gradient matrix
by `1 / (4 * sigma**2)` where the true derivative of
`exp(-d / (8 * sigma))` carries `d / (8 * sigma**2)`.  At the concrete
input `x = [(0,1)]`, `y = [(2,1)]`, `sigma = 1` the returned gradient is
non-zero, hence differs from the true derivative, so a finite-difference
check of the claim fails (the returned value is twice the derivative). -/
theorem evaluate_gradient_is_twice_derivative (sigma : ℝ) (x y : Spectrum)
    (hs : sigma ≠ 0) :
    HasDerivAt (fun s => evaluate_kernel s x y)
      (evaluate_gradient sigma x y / 2) sigma ∧
    evaluate_gradient 1 [((0 : ℝ), (1 : ℝ))] [((2 : ℝ), (1 : ℝ))] ≠ 0 := by
  constructor
  · have hk : (fun s => evaluate_kernel s x y) =
        fun s => -(pairSum (kernelTerm s) x y) := by
      funext s
      exact evaluate_kernel_eq s x y
    have hgoal : evaluate_gradient sigma x y / 2 =
        -(pairSum (fun a b =>
          kernelTerm sigma a b * ((a.1 - b.1) ^ 2 / (8 * sigma ^ 2)))
          x y) := by
      rw [evaluate_gradient_eq, neg_div, neg_inj, ← pairSum_div_two]
      unfold pairSum
      refine list_sum_map_congr _ _ _ ?_
      intro a _
      refine list_sum_map_congr _ _ _ ?_
      intro b _
      unfold gradientTerm
      field_simp
      ring
    rw [hk, hgoal]
    exact (hasDerivAt_pairSum x y sigma hs).neg
  · rw [evaluate_gradient_eq]
    simp only [pairSum, gradientTerm, kernelTerm, List.map_cons,
      List.map_nil, List.sum_cons, List.sum_nil]
    intro h
    have hexp := (Real.exp_pos (-((0 : ℝ) - 2) ^ 2 / (8 * 1))).ne'
    norm_num at h

/-- Witness for `evaluate_gradient_is_twice_derivative` at
`sigma = 1`, `x = [(0,1)]`, `y = [(2,1)]`. -/
theorem evaluate_gradient_is_twice_derivative_witness :
    (1 : ℝ) ≠ 0 ∧
    (HasDerivAt
        (fun s => evaluate_kernel s [((0 : ℝ), (1 : ℝ))]
          [((2 : ℝ), (1 : ℝ))])
        (evaluate_gradient 1 [((0 : ℝ), (1 : ℝ))]
          [((2 : ℝ), (1 : ℝ))] / 2) 1 ∧
      evaluate_gradient 1 [((0 : ℝ), (1 : ℝ))] [((2 : ℝ), (1 : ℝ))] ≠ 0) :=
  ⟨one_ne_zero,
    evaluate_gradient_is_twice_derivative 1 _ _ one_ne_zero⟩

/-- Witness for `diag_matches_matrix_diagonal` on a concrete
collection. -/
theorem diag_matches_matrix_diagonal_witness :
    0 < ([[((0 : ℝ), (1 : ℝ)), ((2 : ℝ), (3 : ℝ))]] : List Spectrum).length ∧
    (DiffusionKernel.diag 1
        [[((0 : ℝ), (1 : ℝ)), ((2 : ℝ), (3 : ℝ))]]).getD 0 0 =
      ((kernelMatrix 1 [[((0 : ℝ), (1 : ℝ)), ((2 : ℝ), (3 : ℝ))]]
          [[((0 : ℝ), (1 : ℝ)), ((2 : ℝ), (3 : ℝ))]]).getD 0 []).getD 0 0 :=
  ⟨by norm_num, diag_matches_matrix_diagonal 1 _ 0 (by norm_num)⟩

end MaldiLearn
